import Mathlib

/-!
# Verification of `packagers.Jam.Execute` (src/packagers/jam.go)

A shallow embedding of the Go method `Jam.Execute` and of the three
option setters of `Jam`.  The collaborators of the method (the injected
builder and packaging executables, the injected temp-directory allocator,
and the operating-system primitives `os.MkdirTemp`, `os.RemoveAll`,
`os.Stat`, `fs.Exists` and the `tar` subprocess) are parameters acting on
an abstract world state `σ`.  Every call the method makes is recorded,
with its arguments and its result, in a trace, so that statements such as
"the packaging tool is never invoked" can be expressed.

The library function `filepath.Join` (Unix flavour, separator `/`) is
embedded from its documented algorithm: join the elements from the first
non-empty one on with the separator and apply `filepath.Clean`.  The loop of
`filepath.Clean` is embedded element by element rather than byte by byte.
`fmt.Sprintf("%s.tgz", version)` is `version ++ ".tgz"`.

Nothing is assumed about the collaborators in the model itself.  Where a
statement speaks of a directory that "no longer exists", the part of the
contract of `os.RemoveAll` it relies on is a hypothesis of the theorem.
-/

namespace Packagers

/-! ## Paths: `filepath.Clean`, `filepath.Join`, `filepath.Base`, `filepath.Dir` -/

/-- Split a path at every separator `/` (like `strings.Split(path, "/")`):
the result always has at least one element. -/
def splitSlash : List Char → List (List Char)
  | [] => [[]]
  | c :: cs =>
    if c = '/' then [] :: splitSlash cs
    else
      match splitSlash cs with
      | [] => [[c]]
      | h :: t => (c :: h) :: t

/-- One iteration of the loop of `filepath.Clean`, on a whole path element
`c`; `out` is the list of elements written to the output buffer so far.
Empty elements and `.` are skipped; `..` removes the last written element when
there is one to backtrack over (`out.w > dotdot`), is appended when the path
is not rooted, and is dropped at the root; any other element is appended. -/
def cleanStep (rooted : Bool) (out : List (List Char)) (c : List Char) : List (List Char) :=
  if c = [] then out
  else if c = ['.'] then out
  else if c = ['.', '.'] then
    match out.getLast? with
    | some top =>
      if top = ['.', '.'] then (if rooted then out else out ++ [c])
      else out.dropLast
    | none => if rooted then out else out ++ [c]
  else out ++ [c]

/-- Path elements of a path, joined back with single separators. -/
def joinSlash : List (List Char) → List Char
  | [] => []
  | [c] => c
  | c :: cs => c ++ '/' :: joinSlash cs

/-- The output of `filepath.Clean` for the written elements `out`: a leading
separator when the path is rooted, the elements separated by single
separators, and `.` when nothing at all was written. -/
def cleanRender (rooted : Bool) (out : List (List Char)) : List Char :=
  if rooted then '/' :: joinSlash out
  else if out = [] then ['.']
  else joinSlash out

/-- Whether a path starts with the separator. -/
def isRooted (p : List Char) : Bool := p.head? = some '/'

/-- The elements `filepath.Clean` writes for the path `p`. -/
def cleanElems (p : List Char) : List (List Char) :=
  (splitSlash p).foldl (cleanStep (isRooted p)) []

/-- The function `filepath.Clean` on the characters of a path. -/
def cleanChars (p : List Char) : List Char :=
  cleanRender (isRooted p) (cleanElems p)

/-- The function `filepath.Join` for two elements, on characters: the elements
from the first non-empty one on are joined with `/` and cleaned; the result
is empty when both are empty. -/
def joinChars (a b : List Char) : List Char :=
  if a ≠ [] then cleanChars (a ++ '/' :: b)
  else if b ≠ [] then cleanChars b
  else []

/-- Drop the trailing separators of a reversed path. -/
def dropSlashes : List Char → List Char
  | [] => []
  | c :: cs => if c = '/' then dropSlashes cs else c :: cs

/-- The characters of a reversed path up to its first separator. -/
def untilSlash : List Char → List Char
  | [] => []
  | c :: cs => if c = '/' then [] else c :: untilSlash cs

/-- The reversed path from its first separator on (the separator included). -/
def fromSlash : List Char → List Char
  | [] => []
  | c :: cs => if c = '/' then c :: cs else fromSlash cs

/-- The function `filepath.Base` on characters: the last element of the path,
after trailing separators are removed; `.` for the empty path and `/` for a
path of separators only. -/
def baseChars (p : List Char) : List Char :=
  if p = [] then ['.']
  else
    let e := (untilSlash (dropSlashes p.reverse)).reverse
    if e = [] then ['/'] else e

/-- The function `filepath.Dir` on characters: everything up to and including
the last separator, cleaned. -/
def dirChars (p : List Char) : List Char :=
  cleanChars (fromSlash p.reverse).reverse

/-- Go `filepath.Clean`. -/
def filepathClean (p : String) : String := String.mk (cleanChars p.data)

/-- Go `filepath.Join(a, b)`. -/
def filepathJoin (a b : String) : String := String.mk (joinChars a.data b.data)

/-- Go `filepath.Base`. -/
def filepathBase (p : String) : String := String.mk (baseChars p.data)

/-- Go `filepath.Dir`. -/
def filepathDir (p : String) : String := String.mk (dirChars p.data)

/-! ## Predicates on path elements, used to state facts about `filepath.Clean` -/

/-- The invariant of the output buffer of `filepath.Clean`: every written
element is a non-empty, separator-free element other than `.`; a rooted path
holds no `..`; and `..` elements only stand at the front. -/
def GoodOut (rooted : Bool) (out : List (List Char)) : Prop :=
  (∀ c ∈ out, c ≠ [] ∧ c ≠ ['.'] ∧ '/' ∉ c) ∧
  (rooted = true → ['.', '.'] ∉ out) ∧
  (∀ l1 l2, out = l1 ++ ['.', '.'] :: l2 → ∀ x ∈ l1, x = ['.', '.'])

/-- A real path element: not empty, not `.` or `..`, and free of separators. -/
def RealElem (c : List Char) : Prop :=
  c ≠ [] ∧ c ≠ ['.'] ∧ c ≠ ['.', '.'] ∧ '/' ∉ c

/-- The directory part that `filepath.Clean` writes before a last real
element: nothing for a relative path with no other element, `/` at the root,
and the cleaned directory followed by a separator otherwise. -/
def dirPart (rooted : Bool) (out : List (List Char)) : List Char :=
  if out = [] then (if rooted then ['/'] else []) else cleanRender rooted out ++ ['/']

/-! ## Data model -/

/-- A Go `error` value; the `nil` error is `Option.none`. -/
abbrev Error := String

/-- The fields of `pexec.Execution` that `Jam.Execute` sets (the two stream
fields are always the streams of the host process and are left out).  A field
that the code does not set has Go's zero value, the empty string. -/
structure Execution where
  /-- working directory of the subprocess -/
  Dir : String
  /-- argument list of the subprocess -/
  Args : List String
deriving DecidableEq

/-- The interface `Executable`: running an execution may change the world and
returns an error or `nil`. -/
abbrev Executable (σ : Type) := Execution → σ → Option Error × σ

/-- A temp-directory allocator `func(dir, pattern string) (string, error)`. -/
abbrev TempDirFn (σ : Type) := String → String → σ → (String × Option Error) × σ

/-- The struct `Jam`. -/
structure Jam (σ : Type) where
  /-- the builder tool (`jam`) -/
  executable : Executable σ
  /-- the packaging tool (`pack`) -/
  pack : Executable σ
  /-- the injected temp-directory allocator -/
  tempOutput : TempDirFn σ

/-- The method `Jam.WithExecutable`. -/
def Jam.WithExecutable {σ : Type} (j : Jam σ) (executable : Executable σ) : Jam σ :=
  Jam.mk executable j.pack j.tempOutput

/-- The method `Jam.WithPack`. -/
def Jam.WithPack {σ : Type} (j : Jam σ) (pack : Executable σ) : Jam σ :=
  Jam.mk j.executable pack j.tempOutput

/-- The method `Jam.WithTempOutput`. -/
def Jam.WithTempOutput {σ : Type} (j : Jam σ) (tempOutput : TempDirFn σ) : Jam σ :=
  Jam.mk j.executable j.pack tempOutput

/-- The library and operating-system collaborators that `Jam.Execute` reaches
directly, not through a field of `Jam`. -/
structure Host (σ : Type) where
  /-- the function `os.MkdirTemp` -/
  MkdirTemp : TempDirFn σ
  /-- the function `os.RemoveAll`; every call site discards its error -/
  RemoveAll : String → σ → σ
  /-- the function `os.Stat`, of which only the error is used; it reads the world only -/
  Stat : String → σ → Option Error
  /-- the function `fs.Exists` of packit; it reads the world only -/
  Exists : String → σ → Bool × Option Error
  /-- the executable `pexec.NewExecutable("tar")` -/
  tar : Executable σ
  /-- the constant `runtime.GOARCH` -/
  GOARCH : String
  /-- observation used in statements only: does the path exist in the world -/
  pathExists : σ → String → Bool

/-- The constructor `NewJam`: the executables `jam` and `pack` of the host and
`os.MkdirTemp` as the allocator. -/
def NewJam {σ : Type} (h : Host σ) (jamExecutable packExecutable : Executable σ) : Jam σ :=
  Jam.mk jamExecutable packExecutable h.MkdirTemp

/-- A call made by `Jam.Execute`, with its arguments and its result. -/
inductive Call where
  | tempOutput (dir pattern : String) (path : String) (err : Option Error)
  | fsExists (path : String) (found : Bool) (err : Option Error)
  | executable (x : Execution) (err : Option Error)
  | osMkdirTemp (dir pattern : String) (path : String) (err : Option Error)
  | osStat (path : String) (err : Option Error)
  | tar (x : Execution) (err : Option Error)
  | pack (x : Execution) (err : Option Error)
  | osRemoveAll (path : String)
deriving DecidableEq

/-- What a run of `Jam.Execute` leaves behind: the returned error, the final
world, and the calls made, in order. -/
structure Outcome (σ : Type) where
  /-- the value `Execute` returns -/
  err : Option Error
  /-- the world when `Execute` returns -/
  world : σ
  /-- the calls made, oldest first -/
  trace : List Call

/-! ## `Jam.Execute` -/

/-- Lines 62-68 of jam.go: the descriptor file name and the builder flag, from
the two results of the existence check of `extension.toml`. -/
def descriptorAndCommand (fileExists : Bool) (err : Option Error) : String × String :=
  if fileExists = true ∧ err = none then ("extension.toml", "--extension")
  else ("buildpack.toml", "--buildpack")

/-- Lines 70-79 of jam.go: the argument list of the builder tool. -/
def builderArgs (command descriptorPath buildpackTarballPath version : String)
    (offline : Bool) : List String :=
  let args := ["pack", command, descriptorPath, "--output", buildpackTarballPath,
    "--version", version]
  if offline then args ++ ["--offline"] else args

/-- Lines 109-124 of jam.go: the argument list of the packaging tool. -/
def packArgs (goarch output command : String) : List String :=
  if command = "--buildpack" then
    ["buildpack", "package", output, "--format", "file", "--target", "linux/" ++ goarch]
  else
    ["extension", "package", output, "--format", "file"]

/-- Lines 109-135 of jam.go: the packaging-tool call in `tmpDir` with the
argument list of the kind, the removal of `tmpDir`, and the return of the
packaging tool's error. -/
def Jam.packageStep {σ : Type} (h : Host σ) (j : Jam σ) (output command tmpDir : String)
    (s : σ) (tr : List Call) : Outcome σ :=
  let x := Execution.mk tmpDir (packArgs h.GOARCH output command)
  let r := j.pack x s
  let s := h.RemoveAll tmpDir r.2
  Outcome.mk r.1 s (tr ++ [Call.pack x r.1, Call.osRemoveAll tmpDir])

/-- Lines 58-135 of jam.go: the body of `Execute` after the first temp
directory `jamOutput` has been allocated and its removal deferred. -/
def Jam.executeBody {σ : Type} (h : Host σ) (j : Jam σ)
    (buildpackDir output version : String) (offline : Bool)
    (jamOutput : String) (s : σ) (tr : List Call) : Outcome σ :=
  let buildpackTarballPath := filepathJoin jamOutput (version ++ ".tgz")
  let extensionTomlPath := filepathJoin buildpackDir "extension.toml"
  let found := h.Exists extensionTomlPath s
  let tr := tr ++ [Call.fsExists extensionTomlPath found.1 found.2]
  let kind := descriptorAndCommand found.1 found.2
  let buildpackOrExtensionToml := kind.1
  let command := kind.2
  let args := builderArgs command (filepathJoin buildpackDir buildpackOrExtensionToml)
    buildpackTarballPath version offline
  let x := Execution.mk "" args
  let r := j.executable x s
  let tr := tr ++ [Call.executable x r.1]
  match r.1 with
  | some e => Outcome.mk (some e) r.2 tr
  | none =>
    let t := h.MkdirTemp "" "build" r.2
    let tmpDir := t.1.1
    let s := t.2
    let tr := tr ++ [Call.osMkdirTemp "" "build" tmpDir t.1.2]
    let st := h.Stat buildpackTarballPath s
    let tr := tr ++ [Call.osStat buildpackTarballPath st]
    match st with
    | none =>
      let y := Execution.mk tmpDir ["-xvf", buildpackTarballPath]
      let u := h.tar y s
      let tr := tr ++ [Call.tar y u.1]
      match u.1 with
      | some e => Outcome.mk (some e) u.2 tr
      | none => j.packageStep h output command tmpDir u.2 tr
    | some _ => j.packageStep h output command tmpDir s tr

/-- The method `Jam.Execute`, run from the world `s`.  The deferred
`os.RemoveAll(jamOutput)` runs after the body on every path through it. -/
def Jam.Execute {σ : Type} (h : Host σ) (j : Jam σ)
    (buildpackDir output version : String) (offline : Bool) (s : σ) : Outcome σ :=
  let a := j.tempOutput "" "" s
  let jamOutput := a.1.1
  let tr := [Call.tempOutput "" "" jamOutput a.1.2]
  match a.1.2 with
  | some e => Outcome.mk (some e) a.2 tr
  | none =>
    let o := j.executeBody h buildpackDir output version offline jamOutput a.2 tr
    Outcome.mk o.err (h.RemoveAll jamOutput o.world) (o.trace ++ [Call.osRemoveAll jamOutput])

/-! ## Observations on traces -/

/-- The executions the builder tool received. -/
def builderCalls : List Call → List Execution
  | [] => []
  | Call.executable x _ :: cs => x :: builderCalls cs
  | _ :: cs => builderCalls cs

/-- The executions the packaging tool received. -/
def packCalls : List Call → List Execution
  | [] => []
  | Call.pack x _ :: cs => x :: packCalls cs
  | _ :: cs => packCalls cs

/-- The `(dir, pattern)` pairs the injected allocator received. -/
def tempOutputCalls : List Call → List (String × String)
  | [] => []
  | Call.tempOutput d p _ _ :: cs => (d, p) :: tempOutputCalls cs
  | _ :: cs => tempOutputCalls cs

/-- The `(dir, pattern)` pairs `os.MkdirTemp` received. -/
def mkdirTempCalls : List Call → List (String × String)
  | [] => []
  | Call.osMkdirTemp d p _ _ :: cs => (d, p) :: mkdirTempCalls cs
  | _ :: cs => mkdirTempCalls cs

/-! ## A small concrete world, for evaluating the model -/

/-- A world that is the list of the paths that exist. -/
abbrev Paths := List String

/-- An allocator that creates and returns the fixed directory `p`. -/
def allocAt (p : String) : TempDirFn Paths := fun _ _ s => ((p, none), p :: s)

/-- An executable that succeeds and leaves the world alone. -/
def okTool : Executable Paths := fun _ s => (none, s)

/-- An executable that fails with the error `e` and leaves the world alone. -/
def failTool (e : Error) : Executable Paths := fun _ s => (some e, s)

/-- A builder that writes the file `p` and succeeds. -/
def writeTool (p : String) : Executable Paths := fun _ s => (none, p :: s)

/-- Removal of a path and of everything below it. -/
def removeTree (p : String) (s : Paths) : Paths :=
  s.filter (fun q => !(decide (q = p) || (p.data ++ ['/']).isPrefixOf q.data))

/-- A host over `Paths`: `os.MkdirTemp` creates `/tmp/build1`, `os.Stat` and
`fs.Exists` look the path up, `tar` is the given tool, on `amd64`. -/
def simpleHost (tar : Executable Paths) : Host Paths where
  MkdirTemp := allocAt "/tmp/build1"
  RemoveAll := removeTree
  Stat := fun p s => if p ∈ s then none else some "stat: no such file or directory"
  Exists := fun p s => (decide (p ∈ s), none)
  tar := tar
  GOARCH := "amd64"
  pathExists := fun s p => decide (p ∈ s)

/-- A `Jam` whose builder fails. -/
def jamBuilderFails : Jam Paths :=
  Jam.mk (failTool "jam failed") okTool (allocAt "/tmp/jam1")

/-- A `Jam` whose builder writes the tarball of version `1.2.3` into the first
temp directory and whose packaging tool fails. -/
def jamPackFails : Jam Paths :=
  Jam.mk (writeTool "/tmp/jam1/1.2.3.tgz") (failTool "pack failed") (allocAt "/tmp/jam1")

/-- A `Jam` whose builder writes the tarball of version `1.2.3` and whose
packaging tool succeeds. -/
def jamOk : Jam Paths :=
  Jam.mk (writeTool "/tmp/jam1/1.2.3.tgz") okTool (allocAt "/tmp/jam1")

/-- A `Jam` whose tools succeed without writing anything. -/
def jamIdle : Jam Paths :=
  Jam.mk okTool okTool (allocAt "/tmp/jam1")

/-! ## Facts about the path functions -/

theorem splitSlash_ne_nil (p : List Char) : splitSlash p ≠ [] := by
  cases p with
  | nil => simp [splitSlash]
  | cons c cs =>
    unfold splitSlash
    split
    · simp
    · split <;> simp

theorem splitSlash_append_slash (a b : List Char) :
    splitSlash (a ++ '/' :: b) = splitSlash a ++ splitSlash b := by
  induction a with
  | nil => simp [splitSlash]
  | cons c cs ih =>
    by_cases hc : c = '/'
    · simp [splitSlash, hc, ih]
    · have hne := splitSlash_ne_nil cs
      cases hs : splitSlash cs with
      | nil => exact absurd hs hne
      | cons x xs => simp [splitSlash, hc, ih, hs]

theorem splitSlash_of_no_slash (b : List Char) (hb : '/' ∉ b) : splitSlash b = [b] := by
  induction b with
  | nil => rfl
  | cons c cs ih =>
    have hc : c ≠ '/' := fun h => hb (by simp [h])
    have hcs : '/' ∉ cs := fun h => hb (by simp [h])
    simp [splitSlash, hc, ih hcs]

theorem splitSlash_snoc (p : List Char) (c : Char) (hc : c ≠ '/') :
    ∃ init l, splitSlash (p ++ [c]) = init ++ [l ++ [c]] := by
  induction p with
  | nil => exact ⟨[], [], by simp [splitSlash, hc]⟩
  | cons d ds ih =>
    obtain ⟨init, l, hil⟩ := ih
    by_cases hd : d = '/'
    · exact ⟨[] :: init, l, by simp [splitSlash, hd, hil]⟩
    · cases init with
      | nil => exact ⟨[], d :: l, by simp [splitSlash, hd, hil]⟩
      | cons x xs => exact ⟨(d :: x) :: xs, l, by simp [splitSlash, hd, hil]⟩

theorem no_slash_of_mem_splitSlash (p : List Char) :
    ∀ c ∈ splitSlash p, '/' ∉ c := by
  induction p with
  | nil => simp [splitSlash]
  | cons d ds ih =>
    by_cases hd : d = '/'
    · simp only [splitSlash, hd, if_true]
      intro c hc
      rcases List.mem_cons.1 hc with h | h
      · simp [h]
      · exact ih c h
    · have hne := splitSlash_ne_nil ds
      cases hs : splitSlash ds with
      | nil => exact absurd hs hne
      | cons x xs =>
        rw [hs] at ih
        simp only [splitSlash, hd, if_false, hs]
        intro c hc
        rcases List.mem_cons.1 hc with h | h
        · subst h
          have := ih x (by simp)
          simp only [List.mem_cons, not_or]
          exact ⟨fun h => hd h.symm, this⟩
        · exact ih c (by simp [h])

theorem joinSlash_snoc (out : List (List Char)) (c : List Char) :
    joinSlash (out ++ [c]) = if out = [] then c else joinSlash out ++ '/' :: c := by
  induction out with
  | nil => simp [joinSlash]
  | cons x xs ih =>
    cases xs with
    | nil => simp [joinSlash]
    | cons y ys =>
      simp only [List.cons_append, joinSlash] at ih ⊢
      simp [ih]

theorem splitSlash_joinSlash (out : List (List Char)) (hne : out ≠ [])
    (hs : ∀ c ∈ out, '/' ∉ c) : splitSlash (joinSlash out) = out := by
  induction out with
  | nil => exact absurd rfl hne
  | cons x xs ih =>
    have hx : '/' ∉ x := hs x (by simp)
    cases xs with
    | nil => simpa [joinSlash] using splitSlash_of_no_slash x hx
    | cons y ys =>
      have := ih (by simp) (fun c hc => hs c (by simp [hc]))
      simp only [joinSlash] at this ⊢
      rw [splitSlash_append_slash, splitSlash_of_no_slash x hx, this]
      rfl

theorem goodOut_nil (r : Bool) : GoodOut r [] := by
  refine ⟨by simp, by simp, ?_⟩
  intro l1 l2 h
  simp at h

theorem goodOut_of_append (r : Bool) (a b : List (List Char)) (h : GoodOut r (a ++ b)) :
    GoodOut r a := by
  obtain ⟨h1, h2, h3⟩ := h
  refine ⟨fun c hc => h1 c (by simp [hc]), fun hr hm => h2 hr (by simp [hm]), ?_⟩
  intro l1 l2 e
  exact h3 l1 (l2 ++ b) (by simp [e])

theorem goodOut_snoc_real (r : Bool) (out : List (List Char)) (c : List Char)
    (h : GoodOut r out) (h0 : c ≠ []) (h1 : c ≠ ['.']) (h2 : c ≠ ['.', '.']) (hs : '/' ∉ c) :
    GoodOut r (out ++ [c]) := by
  obtain ⟨g1, g2, g3⟩ := h
  refine ⟨?_, ?_, ?_⟩
  · intro x hx
    rcases List.mem_append.1 hx with hx | hx
    · exact g1 x hx
    · simp only [List.mem_singleton] at hx
      subst hx
      exact ⟨h0, h1, hs⟩
  · intro hr hm
    rcases List.mem_append.1 hm with hm | hm
    · exact g2 hr hm
    · simp only [List.mem_singleton] at hm
      exact h2 hm.symm
  · intro l1 l2 e
    rcases List.eq_nil_or_concat l2 with hl | ⟨l2i, y, hl⟩
    · subst hl
      have e2 : out ++ [c] = l1 ++ [['.', '.']] := by simpa using e
      have := List.append_inj_right' e2 rfl
      simp only [List.cons.injEq, and_true] at this
      exact absurd this h2
    · subst hl
      have e2 : out ++ [c] = (l1 ++ ['.', '.'] :: l2i) ++ [y] := by simpa using e
      have := List.append_inj_left' e2 rfl
      exact g3 l1 l2i this

theorem goodOut_all_dots (r : Bool) (out : List (List Char)) (h : GoodOut r out)
    (ht : out.getLast? = some ['.', '.']) : ∀ x ∈ out, x = ['.', '.'] := by
  rcases List.eq_nil_or_concat out with hl | ⟨i, y, hl⟩
  · subst hl
    simp at ht
  · subst hl
    simp at ht
    subst ht
    intro x hx
    simp only [List.concat_eq_append] at hx
    rcases List.mem_append.1 hx with hx | hx
    · exact h.2.2 i [] (by simp) x hx
    · simpa using hx

theorem goodOut_snoc_dots (out : List (List Char)) (h : GoodOut false out)
    (ht : out.getLast? = some ['.', '.'] ∨ out.getLast? = none) :
    GoodOut false (out ++ [['.', '.']]) := by
  have hall : ∀ x ∈ out, x = ['.', '.'] := by
    rcases ht with ht | ht
    · exact goodOut_all_dots false out h ht
    · have : out = [] := by simpa using ht
      subst this
      simp
  refine ⟨?_, by simp, ?_⟩
  · intro x hx
    rcases List.mem_append.1 hx with hx | hx
    · exact h.1 x hx
    · simp only [List.mem_singleton] at hx
      subst hx
      decide
  · intro l1 l2 e x hx
    have hx2 : x ∈ out ++ [['.', '.']] := by rw [e]; simp [hx]
    rcases List.mem_append.1 hx2 with hx2 | hx2
    · exact hall x hx2
    · simpa using hx2

theorem goodOut_cleanStep (r : Bool) (out : List (List Char)) (c : List Char)
    (h : GoodOut r out) (hs : '/' ∉ c) : GoodOut r (cleanStep r out c) := by
  unfold cleanStep
  split
  · exact h
  · split
    · exact h
    · split
      · rename_i hdd
        split
        · rename_i top htop
          split
          · rename_i hdots
            subst hdots
            cases r with
            | true => simpa using h
            | false =>
              subst hdd
              simpa using goodOut_snoc_dots out h (Or.inl htop)
          · have : out = out.dropLast ++ [top] := by
              have := List.dropLast_append_getLast? top htop
              exact this.symm
            rw [this] at h
            exact goodOut_of_append r _ _ h
        · rename_i hnone
          cases r with
          | true => simpa using h
          | false =>
            subst hdd
            simpa using goodOut_snoc_dots out h (Or.inr hnone)
      · rename_i h0 h1 h2
        exact goodOut_snoc_real r out c h h0 h1 h2 hs

theorem goodOut_foldl (r : Bool) (cs : List (List Char)) (out : List (List Char))
    (h : GoodOut r out) (hs : ∀ c ∈ cs, '/' ∉ c) :
    GoodOut r (cs.foldl (cleanStep r) out) := by
  induction cs generalizing out with
  | nil => exact h
  | cons c cs ih =>
    exact ih _ (goodOut_cleanStep r out c h (hs c (by simp))) (fun x hx => hs x (by simp [hx]))

theorem goodOut_cleanElems (p : List Char) : GoodOut (isRooted p) (cleanElems p) :=
  goodOut_foldl _ _ _ (goodOut_nil _) (no_slash_of_mem_splitSlash p)

theorem cleanStep_real (r : Bool) (out : List (List Char)) (c : List Char)
    (h0 : c ≠ []) (h1 : c ≠ ['.']) (h2 : c ≠ ['.', '.']) : cleanStep r out c = out ++ [c] := by
  simp [cleanStep, h0, h1, h2]

theorem foldl_cleanStep_good (r : Bool) (out acc : List (List Char))
    (h : GoodOut r (acc ++ out)) : out.foldl (cleanStep r) acc = acc ++ out := by
  induction out generalizing acc with
  | nil => simp
  | cons c cs ih =>
    have hg : GoodOut r ((acc ++ [c]) ++ cs) := by simpa using h
    have hstep : cleanStep r acc c = acc ++ [c] := by
      have hc := h.1 c (by simp)
      by_cases hdd : c = ['.', '.']
      · subst hdd
        have hall : ∀ x ∈ acc, x = ['.', '.'] := h.2.2 acc cs rfl
        have hr : r = false := by
          cases r with
          | false => rfl
          | true => exact absurd (by simp) (h.2.1 rfl)
        subst hr
        rcases List.eq_nil_or_concat acc with hl | ⟨i, y, hl⟩
        · subst hl
          simp [cleanStep]
        · subst hl
          have hy : y = ['.', '.'] := hall y (by simp)
          subst hy
          simp [cleanStep]
      · exact cleanStep_real r acc c hc.1 hc.2.1 hdd
    rw [List.foldl_cons, hstep, ih _ hg]
    simp

theorem isRooted_cleanRender (r : Bool) (out : List (List Char)) (h : GoodOut r out) :
    isRooted (cleanRender r out) = r := by
  cases r with
  | true => simp [cleanRender, isRooted]
  | false =>
    cases out with
    | nil => simp [cleanRender, isRooted]
    | cons x xs =>
      have hx := h.1 x (by simp)
      cases x with
      | nil => exact absurd rfl hx.1
      | cons d ds =>
        have hd : d ≠ '/' := fun e => hx.2.2 (by simp [e])
        cases xs with
        | nil => simp [cleanRender, isRooted, joinSlash, hd]
        | cons y ys => simp [cleanRender, isRooted, joinSlash, hd]

theorem cleanElems_cleanRender (r : Bool) (out : List (List Char)) (h : GoodOut r out) :
    cleanElems (cleanRender r out) = out := by
  unfold cleanElems
  rw [isRooted_cleanRender r out h]
  by_cases hne : out = []
  · subst hne
    cases r <;> simp [cleanRender, joinSlash, splitSlash, cleanStep]
  · have hsplit := splitSlash_joinSlash out hne (fun c hc => (h.1 c hc).2.2)
    cases r with
    | true =>
      simp only [cleanRender, if_true, splitSlash, hsplit, List.foldl_cons]
      have : cleanStep true [] [] = [] := by simp [cleanStep]
      rw [this]
      simpa using foldl_cleanStep_good true out [] (by simpa using h)
    | false =>
      simp only [cleanRender, hne, if_false, Bool.false_eq_true]
      rw [hsplit]
      simpa using foldl_cleanStep_good false out [] (by simpa using h)

/-- The function `filepath.Clean` returns its own outputs unchanged. -/
theorem cleanChars_cleanRender (r : Bool) (out : List (List Char)) (h : GoodOut r out) :
    cleanChars (cleanRender r out) = cleanRender r out := by
  unfold cleanChars
  rw [cleanElems_cleanRender r out h, isRooted_cleanRender r out h]

theorem cleanChars_idem (p : List Char) : cleanChars (cleanChars p) = cleanChars p :=
  cleanChars_cleanRender _ _ (goodOut_cleanElems p)

theorem isRooted_append (a b : List Char) (ha : a ≠ []) : isRooted (a ++ b) = isRooted a := by
  cases a with
  | nil => exact absurd rfl ha
  | cons c cs => simp [isRooted]

theorem cleanChars_trailing_slash (p : List Char) (hp : p ≠ []) :
    cleanChars (p ++ ['/']) = cleanChars p := by
  unfold cleanChars cleanElems
  rw [isRooted_append p _ hp, splitSlash_append_slash, List.foldl_append]
  simp [splitSlash, cleanStep]

theorem cleanChars_slash_real (a name : List Char) (ha : a ≠ []) (hn : RealElem name) :
    cleanChars (a ++ '/' :: name) = cleanRender (isRooted a) (cleanElems a ++ [name]) := by
  unfold cleanChars cleanElems
  rw [isRooted_append a _ ha, splitSlash_append_slash, List.foldl_append,
    splitSlash_of_no_slash name hn.2.2.2]
  simp [cleanStep_real _ _ name hn.1 hn.2.1 hn.2.2.1]

theorem cleanChars_real (name : List Char) (hn : RealElem name) : cleanChars name = name := by
  have hr : isRooted name = false := by
    cases name with
    | nil => rfl
    | cons c cs =>
      have hc : c ≠ '/' := fun e => hn.2.2.2 (by simp [e])
      simp [isRooted, hc]
  unfold cleanChars cleanElems
  rw [hr, splitSlash_of_no_slash name hn.2.2.2]
  simp [cleanStep_real _ _ name hn.1 hn.2.1 hn.2.2.1, cleanRender, joinSlash]

theorem cleanRender_snoc (r : Bool) (out : List (List Char)) (name : List Char) :
    cleanRender r (out ++ [name]) = dirPart r out ++ name := by
  by_cases hne : out = []
  · subst hne
    cases r <;> simp [cleanRender, dirPart, joinSlash]
  · cases r <;> simp [cleanRender, dirPart, joinSlash_snoc, hne]

theorem dirPart_shape (r : Bool) (out : List (List Char)) :
    dirPart r out = [] ∨ ∃ q, dirPart r out = q ++ ['/'] := by
  unfold dirPart
  split
  · cases r
    · exact Or.inl rfl
    · exact Or.inr ⟨[], rfl⟩
  · exact Or.inr ⟨_, rfl⟩

theorem cleanChars_dirPart (r : Bool) (out : List (List Char)) (h : GoodOut r out) :
    cleanChars (dirPart r out) = cleanRender r out := by
  by_cases hne : out = []
  · subst hne
    cases r <;> decide
  · have hne2 : cleanRender r out ≠ [] := by
      cases r with
      | true => simp [cleanRender]
      | false =>
        cases out with
        | nil => exact absurd rfl hne
        | cons x xs =>
          have hx := (h.1 x (by simp)).1
          cases xs with
          | nil => simpa [cleanRender, joinSlash] using hx
          | cons y ys => simp [cleanRender, joinSlash]
    simp only [dirPart, hne, if_false]
    rw [cleanChars_trailing_slash _ hne2, cleanChars_cleanRender r out h]

theorem untilSlash_append (n q : List Char) (hn : '/' ∉ n) (hq : q = [] ∨ ∃ t, q = '/' :: t) :
    untilSlash (n ++ q) = n := by
  induction n with
  | nil =>
    rcases hq with hq | ⟨t, hq⟩ <;> subst hq <;> simp [untilSlash]
  | cons c cs ih =>
    have hc : c ≠ '/' := fun e => hn (by simp [e])
    have hcs : '/' ∉ cs := fun e => hn (by simp [e])
    simp [untilSlash, hc, ih hcs]

theorem fromSlash_append (n q : List Char) (hn : '/' ∉ n) (hq : q = [] ∨ ∃ t, q = '/' :: t) :
    fromSlash (n ++ q) = q := by
  induction n with
  | nil =>
    rcases hq with hq | ⟨t, hq⟩ <;> subst hq <;> simp [fromSlash]
  | cons c cs ih =>
    have hc : c ≠ '/' := fun e => hn (by simp [e])
    have hcs : '/' ∉ cs := fun e => hn (by simp [e])
    simp [fromSlash, hc, ih hcs]

theorem reverse_shape (pre : List Char) (h : pre = [] ∨ ∃ q, pre = q ++ ['/']) :
    pre.reverse = [] ∨ ∃ t, pre.reverse = '/' :: t := by
  rcases h with h | ⟨q, h⟩
  · exact Or.inl (by simp [h])
  · exact Or.inr ⟨q.reverse, by simp [h]⟩

theorem baseChars_append (pre name : List Char) (h0 : name ≠ []) (hs : '/' ∉ name)
    (hp : pre = [] ∨ ∃ q, pre = q ++ ['/']) : baseChars (pre ++ name) = name := by
  have hrs : '/' ∉ name.reverse := by simpa using hs
  have hr0 : name.reverse ≠ [] := by simpa using h0
  have hdrop : dropSlashes (name.reverse ++ pre.reverse) = name.reverse ++ pre.reverse := by
    cases hr : name.reverse with
    | nil => exact absurd hr hr0
    | cons c cs =>
      have hc : c ≠ '/' := fun e => hrs (by simp [hr, e])
      simp [dropSlashes, hc]
  unfold baseChars
  simp only [List.reverse_append, hdrop,
    untilSlash_append name.reverse pre.reverse hrs (reverse_shape pre hp), List.reverse_reverse]
  simp [h0]

theorem dirChars_append (pre name : List Char) (hs : '/' ∉ name)
    (hp : pre = [] ∨ ∃ q, pre = q ++ ['/']) : dirChars (pre ++ name) = cleanChars pre := by
  have hrs : '/' ∉ name.reverse := by simpa using hs
  unfold dirChars
  rw [List.reverse_append, fromSlash_append name.reverse pre.reverse hrs (reverse_shape pre hp),
    List.reverse_reverse]

/-- Joining a directory and a real element: the element is appended to the
cleaned directory, so it is the base of the result and the cleaned directory is
its directory. -/
theorem joinChars_real (a name : List Char) (hn : RealElem name) :
    baseChars (joinChars a name) = name ∧ dirChars (joinChars a name) = cleanChars a := by
  by_cases ha : a = []
  · subst ha
    have : joinChars [] name = [] ++ name := by
      simp [joinChars, hn.1, cleanChars_real name hn]
    rw [this]
    exact ⟨baseChars_append [] name hn.1 hn.2.2.2 (Or.inl rfl),
      by rw [dirChars_append [] name hn.2.2.2 (Or.inl rfl)]⟩
  · have : joinChars a name = dirPart (isRooted a) (cleanElems a) ++ name := by
      simp [joinChars, ha, cleanChars_slash_real a name ha hn, cleanRender_snoc]
    rw [this]
    refine ⟨baseChars_append _ name hn.1 hn.2.2.2 (dirPart_shape _ _), ?_⟩
    rw [dirChars_append _ name hn.2.2.2 (dirPart_shape _ _),
      cleanChars_dirPart _ _ (goodOut_cleanElems a)]
    rfl

/-- The result of `filepath.Clean` keeps the last character of a path that
ends in neither a separator nor a dot. -/
theorem cleanChars_snoc (p : List Char) (c : Char) (h1 : c ≠ '/') (h2 : c ≠ '.') :
    ∃ r, cleanChars (p ++ [c]) = r ++ [c] := by
  obtain ⟨init, l, hil⟩ := splitSlash_snoc p c h1
  have hreal : cleanStep (isRooted (p ++ [c])) (init.foldl (cleanStep (isRooted (p ++ [c]))) [])
      (l ++ [c]) = init.foldl (cleanStep (isRooted (p ++ [c]))) [] ++ [l ++ [c]] := by
    apply cleanStep_real
    · simp
    · intro e
      have := congrArg List.getLast? e
      simp at this
      exact h2 this
    · intro e
      have := congrArg List.getLast? e
      simp at this
      exact h2 this
  unfold cleanChars cleanElems
  rw [hil, List.foldl_append, List.foldl_cons, List.foldl_nil, hreal, cleanRender_snoc]
  exact ⟨_ ++ l, (List.append_assoc _ _ _).symm⟩

theorem joinChars_snoc (a b : List Char) (c : Char) (h1 : c ≠ '/') (h2 : c ≠ '.') :
    ∃ r, joinChars a (b ++ [c]) = r ++ [c] := by
  unfold joinChars
  split
  · have : a ++ '/' :: (b ++ [c]) = (a ++ '/' :: b) ++ [c] := by simp
    rw [this]
    exact cleanChars_snoc _ c h1 h2
  · simp only [ne_eq, List.append_eq_nil, List.cons_ne_self, and_false, not_false_eq_true,
      if_true]
    exact cleanChars_snoc _ c h1 h2

theorem removeTree_removes (p : String) (w : Paths) :
    (simpleHost okTool).pathExists (removeTree p w) p = false := by
  simp [simpleHost, removeTree]

theorem removeTree_keeps_absent (t : Executable Paths) (p q : String) (w : Paths)
    (hq : (simpleHost t).pathExists w q = false) :
    (simpleHost t).pathExists ((simpleHost t).RemoveAll p w) q = false := by
  simp only [simpleHost, decide_eq_false_iff_not, removeTree] at hq ⊢
  intro hm
  exact hq (List.mem_filter.1 hm).1

theorem trace_suffix (l : List Call) (a b : Call) (c : String) :
    ∃ pre T1, (l ++ [a, b]) ++ [Call.osRemoveAll c] = pre ++ [a, b, Call.osRemoveAll T1] :=
  ⟨l, c, by simp⟩

theorem trace_suffix_two (l : List Call) (a b : Call) :
    ∃ pre, (l ++ [a]) ++ [b] = pre ++ [a, b] :=
  ⟨l, by simp⟩

/-! ## Error propagation and cleanup -/

/-- C1: in every run of `Jam.Execute` in which the builder executable is
invoked and returns the error `e`, `Execute` returns exactly `e` and the
packaging executable is never invoked. -/
theorem builder_error_returned_pack_not_invoked {σ : Type} (h : Host σ) (j : Jam σ)
    (buildpackDir output version : String) (offline : Bool) (s : σ) (x : Execution) (e : Error)
    (hx : Call.executable x (some e) ∈ (j.Execute h buildpackDir output version offline s).trace) :
    (j.Execute h buildpackDir output version offline s).err = some e ∧
      packCalls (j.Execute h buildpackDir output version offline s).trace = [] := by
  simp only [Jam.Execute, Jam.executeBody, Jam.packageStep] at hx ⊢
  split at hx
  · simp at hx
  · rename_i ha
    simp only [ha] at hx ⊢
    split at hx
    · rename_i e2 hb
      simp only [hb] at hx ⊢
      simp at hx
      simp [hx.2, packCalls]
    · rename_i hb
      simp only [hb] at hx ⊢
      split at hx
      · split at hx
        · simp [hb] at hx
        · simp [hb] at hx
      · simp [hb] at hx

/-- Witness of C1: a run whose builder fails with `jam failed`. -/
theorem builder_error_returned_pack_not_invoked_witness :
    Call.executable
        (Execution.mk "" ["pack", "--buildpack", "/src/buildpack.toml", "--output",
          "/tmp/jam1/1.2.3.tgz", "--version", "1.2.3"]) (some "jam failed") ∈
      (jamBuilderFails.Execute (simpleHost okTool) "/src" "/out/bp.cnb" "1.2.3" false
        ["/src"]).trace ∧
    (jamBuilderFails.Execute (simpleHost okTool) "/src" "/out/bp.cnb" "1.2.3" false
        ["/src"]).err = some "jam failed" ∧
    packCalls (jamBuilderFails.Execute (simpleHost okTool) "/src" "/out/bp.cnb" "1.2.3" false
        ["/src"]).trace = [] :=
  ⟨by decide, builder_error_returned_pack_not_invoked (simpleHost okTool) jamBuilderFails
    "/src" "/out/bp.cnb" "1.2.3" false ["/src"]
    (Execution.mk "" ["pack", "--buildpack", "/src/buildpack.toml", "--output",
      "/tmp/jam1/1.2.3.tgz", "--version", "1.2.3"]) "jam failed" (by decide)⟩

/-- C2: evaluation of `Jam.Execute` on a run in which the builder succeeds, the
tarball exists and `tar` fails: the extraction error is returned, but the
second temp directory `/tmp/build1` that `os.MkdirTemp` created still exists in
the final world, and the only `os.RemoveAll` call is the deferred one for the
first temp directory. -/
theorem extraction_failure_leaves_second_temp_dir :
    (jamOk.Execute (simpleHost (failTool "tar failed")) "/src" "/out/bp.cnb" "1.2.3" false
        ["/src", "/tmp"]).err = some "tar failed" ∧
    (jamOk.Execute (simpleHost (failTool "tar failed")) "/src" "/out/bp.cnb" "1.2.3" false
        ["/src", "/tmp"]).trace =
      [Call.tempOutput "" "" "/tmp/jam1" none,
       Call.fsExists "/src/extension.toml" false none,
       Call.executable (Execution.mk "" ["pack", "--buildpack", "/src/buildpack.toml",
         "--output", "/tmp/jam1/1.2.3.tgz", "--version", "1.2.3"]) none,
       Call.osMkdirTemp "" "build" "/tmp/build1" none,
       Call.osStat "/tmp/jam1/1.2.3.tgz" none,
       Call.tar (Execution.mk "/tmp/build1" ["-xvf", "/tmp/jam1/1.2.3.tgz"]) (some "tar failed"),
       Call.osRemoveAll "/tmp/jam1"] ∧
    (simpleHost (failTool "tar failed")).pathExists
      (jamOk.Execute (simpleHost (failTool "tar failed")) "/src" "/out/bp.cnb" "1.2.3" false
        ["/src", "/tmp"]).world "/tmp/build1" = true := by
  decide

/-- In every run of `Jam.Execute` in which `tar` is invoked and returns the
error `e`, `Execute` returns exactly `e`, and the `tar` call is followed by the
deferred removal of the first temp directory only: no `os.RemoveAll` call for
the second temp directory is made. -/
theorem extraction_error_returned_without_removal {σ : Type} (h : Host σ) (j : Jam σ)
    (buildpackDir output version : String) (offline : Bool) (s : σ)
    (y : Execution) (e : Error)
    (hy : Call.tar y (some e) ∈ (j.Execute h buildpackDir output version offline s).trace) :
    (j.Execute h buildpackDir output version offline s).err = some e ∧
      ∃ pre, (j.Execute h buildpackDir output version offline s).trace =
        pre ++ [Call.tar y (some e), Call.osRemoveAll (j.tempOutput "" "" s).1.1] := by
  simp only [Jam.Execute, Jam.executeBody, Jam.packageStep] at hy ⊢
  split at hy
  · simp at hy
  · rename_i ha
    simp only [ha] at hy ⊢
    split at hy
    · simp at hy
    · rename_i hb
      simp only [hb] at hy ⊢
      split at hy
      · rename_i hst
        simp only [hst] at hy ⊢
        split at hy
        · rename_i e2 hu
          simp only [hu] at hy ⊢
          simp at hy
          refine ⟨by rw [hy.2], ?_⟩
          rw [hy.1, hy.2]
          exact trace_suffix_two _ _ _
        · rename_i hu
          simp [hu] at hy
      · simp at hy

/-- C3: in every run of `Jam.Execute` in which the packaging executable is
invoked and returns the error `e`, `Execute` returns exactly `e`; the packaging
call is followed by `os.RemoveAll(T2)` for the second temp directory `T2` (the
path `os.MkdirTemp("", "build")` returned) and then only by the deferred removal
of the first one; and `T2` does not exist in the world `Execute` returns in,
provided `os.RemoveAll(T2)` leaves `T2` absent and no `os.RemoveAll` call brings
an absent `T2` back. -/
theorem pack_error_returned_after_second_temp_dir_removed {σ : Type} (h : Host σ) (j : Jam σ)
    (buildpackDir output version : String) (offline : Bool) (s : σ)
    (x : Execution) (e : Error) (T2 : String) (r : Option Error)
    (hp : Call.pack x (some e) ∈ (j.Execute h buildpackDir output version offline s).trace)
    (hT2 : Call.osMkdirTemp "" "build" T2 r ∈
      (j.Execute h buildpackDir output version offline s).trace)
    (hrm : ∀ w, h.pathExists (h.RemoveAll T2 w) T2 = false)
    (hkeep : ∀ p w, h.pathExists w T2 = false → h.pathExists (h.RemoveAll p w) T2 = false) :
    (j.Execute h buildpackDir output version offline s).err = some e ∧
      (∃ pre T1, (j.Execute h buildpackDir output version offline s).trace =
        pre ++ [Call.pack x (some e), Call.osRemoveAll T2, Call.osRemoveAll T1]) ∧
      h.pathExists (j.Execute h buildpackDir output version offline s).world T2 = false := by
  simp only [Jam.Execute, Jam.executeBody, Jam.packageStep] at hp hT2 ⊢
  split at hp
  · simp at hp
  · rename_i ha
    simp only [ha] at hp hT2 ⊢
    split at hp
    · simp at hp
    · rename_i hb
      simp only [hb] at hp hT2 ⊢
      split at hp
      · rename_i hst
        simp only [hst] at hp hT2 ⊢
        split at hp
        · simp at hp
        · rename_i hu
          simp only [hu] at hp hT2 ⊢
          simp at hp hT2
          refine ⟨hp.2.symm, ?_, ?_⟩
          · rw [hp.1, hp.2, hT2.1]
            exact trace_suffix _ _ _ _
          · rw [← hT2.1]
            exact hkeep _ _ (hrm _)
      · rename_i e2 hst
        simp only [hst] at hp hT2 ⊢
        simp at hp hT2
        refine ⟨hp.2.symm, ?_, ?_⟩
        · rw [hp.1, hp.2, hT2.1]
          exact trace_suffix _ _ _ _
        · rw [← hT2.1]
          exact hkeep _ _ (hrm _)

/-- Witness of C3: a run whose packaging tool fails with `pack failed`. -/
theorem pack_error_returned_after_second_temp_dir_removed_witness :
    Call.pack (Execution.mk "/tmp/build1" ["buildpack", "package", "/out/bp.cnb", "--format",
          "file", "--target", "linux/amd64"]) (some "pack failed") ∈
      (jamPackFails.Execute (simpleHost okTool) "/src" "/out/bp.cnb" "1.2.3" false
        ["/src", "/tmp"]).trace ∧
    (jamPackFails.Execute (simpleHost okTool) "/src" "/out/bp.cnb" "1.2.3" false
        ["/src", "/tmp"]).err = some "pack failed" ∧
    (∃ pre T1, (jamPackFails.Execute (simpleHost okTool) "/src" "/out/bp.cnb" "1.2.3" false
        ["/src", "/tmp"]).trace =
      pre ++ [Call.pack (Execution.mk "/tmp/build1" ["buildpack", "package", "/out/bp.cnb",
        "--format", "file", "--target", "linux/amd64"]) (some "pack failed"),
        Call.osRemoveAll "/tmp/build1", Call.osRemoveAll T1]) ∧
    (simpleHost okTool).pathExists
      (jamPackFails.Execute (simpleHost okTool) "/src" "/out/bp.cnb" "1.2.3" false
        ["/src", "/tmp"]).world "/tmp/build1" = false :=
  ⟨by decide, pack_error_returned_after_second_temp_dir_removed (simpleHost okTool) jamPackFails
    "/src" "/out/bp.cnb" "1.2.3" false ["/src", "/tmp"]
    (Execution.mk "/tmp/build1" ["buildpack", "package", "/out/bp.cnb", "--format",
      "file", "--target", "linux/amd64"]) "pack failed" "/tmp/build1" none
    (by decide) (by decide) (removeTree_removes "/tmp/build1")
    (fun p w hq => removeTree_keeps_absent okTool p "/tmp/build1" w hq)⟩

/-- C4: in every run of `Jam.Execute` in which the first allocation succeeds
and yields `T1`, the last call of the run is the deferred `os.RemoveAll(T1)`,
whichever way the body was left (builder failure, extraction failure, packaging
failure or success), so `T1` does not exist in the world `Execute` returns in,
provided `os.RemoveAll(T1)` leaves `T1` absent. -/
theorem first_temp_dir_removed_on_every_exit {σ : Type} (h : Host σ) (j : Jam σ)
    (buildpackDir output version : String) (offline : Bool) (s : σ) (T1 : String)
    (hT1 : Call.tempOutput "" "" T1 none ∈
      (j.Execute h buildpackDir output version offline s).trace)
    (hrm : ∀ w, h.pathExists (h.RemoveAll T1 w) T1 = false) :
    (j.Execute h buildpackDir output version offline s).trace.getLast? =
        some (Call.osRemoveAll T1) ∧
      h.pathExists (j.Execute h buildpackDir output version offline s).world T1 = false := by
  simp only [Jam.Execute, Jam.executeBody, Jam.packageStep] at hT1 ⊢
  split at hT1
  · rename_i e ha
    simp [ha] at hT1
  · rename_i ha
    simp only [ha] at hT1 ⊢
    have hj : T1 = (j.tempOutput "" "" s).1.1 := by
      split at hT1
      · simpa using hT1
      · split at hT1
        · split at hT1
          · simpa using hT1
          · simpa using hT1
        · simpa using hT1
    rw [← hj]
    exact ⟨by simp, hrm _⟩

/-- Witness of C4: a successful run; the first temp directory is `/tmp/jam1`. -/
theorem first_temp_dir_removed_on_every_exit_witness :
    Call.tempOutput "" "" "/tmp/jam1" none ∈
      (jamOk.Execute (simpleHost okTool) "/src" "/out/bp.cnb" "1.2.3" false
        ["/src", "/tmp"]).trace ∧
    (jamOk.Execute (simpleHost okTool) "/src" "/out/bp.cnb" "1.2.3" false
        ["/src", "/tmp"]).trace.getLast? = some (Call.osRemoveAll "/tmp/jam1") ∧
    (simpleHost okTool).pathExists
      (jamOk.Execute (simpleHost okTool) "/src" "/out/bp.cnb" "1.2.3" false
        ["/src", "/tmp"]).world "/tmp/jam1" = false :=
  ⟨by decide, first_temp_dir_removed_on_every_exit (simpleHost okTool) jamOk
    "/src" "/out/bp.cnb" "1.2.3" false ["/src", "/tmp"] "/tmp/jam1" (by decide)
    (removeTree_removes "/tmp/jam1")⟩

/-! ## Argument lists -/

theorem descriptor_path_in_dir (buildpackDir d : String)
    (hd : d = "extension.toml" ∨ d = "buildpack.toml") :
    filepathBase (filepathJoin buildpackDir d) = d ∧
      filepathDir (filepathJoin buildpackDir d) = filepathClean buildpackDir := by
  have hreal : RealElem d.data := by
    rcases hd with hd | hd <;> subst hd <;> exact ⟨by decide, by decide, by decide, by decide⟩
  have hj := joinChars_real buildpackDir.data d.data hreal
  constructor
  · simp only [filepathBase, filepathJoin]
    rw [hj.1]
  · simp only [filepathDir, filepathJoin, filepathClean]
    rw [hj.2]

/-- C5: in every run of `Jam.Execute` in which the first allocation succeeds,
the builder executable is invoked exactly once, with the arguments
`pack <flag> <buildpackDir>/<descriptor> --output <tarball> --version <version>`
followed by `--offline` exactly when `offline` is true, where the flag and the
descriptor are `--extension` and `extension.toml` when the existence check of
`<buildpackDir>/extension.toml` answers true without an error, and `--buildpack`
and `buildpack.toml` in every other case.  The path `<buildpackDir>/<descriptor>`
is `filepath.Join(buildpackDir, descriptor)`: its file name is the descriptor
and its directory is the cleaned `buildpackDir`. -/
theorem builder_invoked_once_with_args {σ : Type} (h : Host σ) (j : Jam σ)
    (buildpackDir output version : String) (offline : Bool) (s : σ)
    (hT1 : (j.tempOutput "" "" s).1.2 = none) :
    builderCalls (j.Execute h buildpackDir output version offline s).trace =
      [Execution.mk ""
        (["pack",
          (if h.Exists (filepathJoin buildpackDir "extension.toml") (j.tempOutput "" "" s).2
              = (true, none) then "--extension" else "--buildpack"),
          filepathJoin buildpackDir
            (if h.Exists (filepathJoin buildpackDir "extension.toml") (j.tempOutput "" "" s).2
              = (true, none) then "extension.toml" else "buildpack.toml"),
          "--output", filepathJoin (j.tempOutput "" "" s).1.1 (version ++ ".tgz"),
          "--version", version] ++ (if offline = true then ["--offline"] else []))] ∧
    (∀ d, d = "extension.toml" ∨ d = "buildpack.toml" →
      filepathBase (filepathJoin buildpackDir d) = d ∧
      filepathDir (filepathJoin buildpackDir d) = filepathClean buildpackDir) := by
  refine ⟨?_, descriptor_path_in_dir buildpackDir⟩
  have hk : ∀ f : Bool × Option Error,
      descriptorAndCommand f.1 f.2 =
        if f = (true, none) then ("extension.toml", "--extension")
        else ("buildpack.toml", "--buildpack") := by
    intro f
    rcases f with ⟨b, e⟩
    simp [descriptorAndCommand, Prod.ext_iff]
  have hargs : ∀ a b c d : String, builderArgs a b c d offline =
      ["pack", a, b, "--output", c, "--version", d] ++
        (if offline = true then ["--offline"] else []) := by
    intro a b c d
    cases offline <;> simp [builderArgs]
  simp only [Jam.Execute, Jam.executeBody, Jam.packageStep, hT1, hk, hargs]
  split
  · split <;> simp [builderCalls]
  · split
    · split
      · split <;> simp [builderCalls]
      · split <;> simp [builderCalls]
    · split <;> simp [builderCalls]

/-- Witness of C5: a successful run on a source directory with `extension.toml`. -/
theorem builder_invoked_once_with_args_witness :
    (jamOk.tempOutput "" "" ["/src", "/src/extension.toml", "/tmp"]).1.2 = none ∧
    builderCalls (jamOk.Execute (simpleHost okTool) "/src" "/out/ext.cnb" "1.2.3" true
        ["/src", "/src/extension.toml", "/tmp"]).trace =
      [Execution.mk "" ["pack", "--extension", "/src/extension.toml", "--output",
        "/tmp/jam1/1.2.3.tgz", "--version", "1.2.3", "--offline"]] :=
  ⟨rfl, (builder_invoked_once_with_args (simpleHost okTool) jamOk "/src" "/out/ext.cnb"
    "1.2.3" true ["/src", "/src/extension.toml", "/tmp"] rfl).1.trans (by decide)⟩

/-- C6: in every run of `Jam.Execute` in which the existence check of
`<buildpackDir>/extension.toml` answers false or returns an error, every
invocation of the packaging tool has exactly the arguments
`buildpack package <output> --format file --target linux/<GOARCH>`. -/
theorem pack_args_of_buildpack {σ : Type} (h : Host σ) (j : Jam σ)
    (buildpackDir output version : String) (offline : Bool) (s : σ)
    (x : Execution) (r : Option Error)
    (hc : h.Exists (filepathJoin buildpackDir "extension.toml") (j.tempOutput "" "" s).2
      ≠ (true, none))
    (hp : Call.pack x r ∈ (j.Execute h buildpackDir output version offline s).trace) :
    x.Args = ["buildpack", "package", output, "--format", "file", "--target",
      "linux/" ++ h.GOARCH] := by
  have hk : descriptorAndCommand
      (h.Exists (filepathJoin buildpackDir "extension.toml") (j.tempOutput "" "" s).2).1
      (h.Exists (filepathJoin buildpackDir "extension.toml") (j.tempOutput "" "" s).2).2 =
      ("buildpack.toml", "--buildpack") := by
    unfold descriptorAndCommand
    rw [if_neg]
    intro hh
    exact hc (Prod.ext hh.1 hh.2)
  simp only [Jam.Execute, Jam.executeBody, Jam.packageStep, hk] at hp
  split at hp
  · simp at hp
  · split at hp
    · simp at hp
    · split at hp
      · split at hp
        · simp at hp
        · simp at hp
          rw [hp.1]
          simp [packArgs]
      · simp at hp
        rw [hp.1]
        simp [packArgs]

/-- Witness of C6: a successful run on a source directory without
`extension.toml`, on `amd64`. -/
theorem pack_args_of_buildpack_witness :
    (simpleHost okTool).Exists (filepathJoin "/src" "extension.toml")
        (jamOk.tempOutput "" "" ["/src", "/tmp"]).2 ≠ (true, none) ∧
    Call.pack (Execution.mk "/tmp/build1" ["buildpack", "package", "/out/bp.cnb", "--format",
        "file", "--target", "linux/amd64"]) none ∈
      (jamOk.Execute (simpleHost okTool) "/src" "/out/bp.cnb" "1.2.3" false
        ["/src", "/tmp"]).trace ∧
    (Execution.mk "/tmp/build1" ["buildpack", "package", "/out/bp.cnb", "--format",
        "file", "--target", "linux/amd64"]).Args =
      ["buildpack", "package", "/out/bp.cnb", "--format", "file", "--target",
        "linux/" ++ (simpleHost okTool).GOARCH] :=
  ⟨by decide, by decide, pack_args_of_buildpack (simpleHost okTool) jamOk "/src" "/out/bp.cnb"
    "1.2.3" false ["/src", "/tmp"]
    (Execution.mk "/tmp/build1" ["buildpack", "package", "/out/bp.cnb", "--format",
        "file", "--target", "linux/amd64"]) none (by decide) (by decide)⟩

/-- C7: in every run of `Jam.Execute` in which the existence check of
`<buildpackDir>/extension.toml` answers true without an error, every invocation
of the packaging tool has exactly the arguments
`extension package <output> --format file`, with no `--target` and no
architecture after them. -/
theorem pack_args_of_extension {σ : Type} (h : Host σ) (j : Jam σ)
    (buildpackDir output version : String) (offline : Bool) (s : σ)
    (x : Execution) (r : Option Error)
    (hc : h.Exists (filepathJoin buildpackDir "extension.toml") (j.tempOutput "" "" s).2
      = (true, none))
    (hp : Call.pack x r ∈ (j.Execute h buildpackDir output version offline s).trace) :
    x.Args = ["extension", "package", output, "--format", "file"] := by
  have hk : descriptorAndCommand
      (h.Exists (filepathJoin buildpackDir "extension.toml") (j.tempOutput "" "" s).2).1
      (h.Exists (filepathJoin buildpackDir "extension.toml") (j.tempOutput "" "" s).2).2 =
      ("extension.toml", "--extension") := by
    rw [hc]
    rfl
  simp only [Jam.Execute, Jam.executeBody, Jam.packageStep, hk] at hp
  split at hp
  · simp at hp
  · split at hp
    · simp at hp
    · split at hp
      · split at hp
        · simp at hp
        · simp at hp
          rw [hp.1]
          simp [packArgs]
      · simp at hp
        rw [hp.1]
        simp [packArgs]

/-- Witness of C7: a successful run on a source directory with `extension.toml`. -/
theorem pack_args_of_extension_witness :
    (simpleHost okTool).Exists (filepathJoin "/src" "extension.toml")
        (jamOk.tempOutput "" "" ["/src", "/src/extension.toml", "/tmp"]).2 = (true, none) ∧
    Call.pack (Execution.mk "/tmp/build1" ["extension", "package", "/out/ext.cnb", "--format",
        "file"]) none ∈
      (jamOk.Execute (simpleHost okTool) "/src" "/out/ext.cnb" "1.2.3" true
        ["/src", "/src/extension.toml", "/tmp"]).trace ∧
    (Execution.mk "/tmp/build1" ["extension", "package", "/out/ext.cnb", "--format",
        "file"]).Args = ["extension", "package", "/out/ext.cnb", "--format", "file"] :=
  ⟨by decide, by decide, pack_args_of_extension (simpleHost okTool) jamOk "/src" "/out/ext.cnb"
    "1.2.3" true ["/src", "/src/extension.toml", "/tmp"]
    (Execution.mk "/tmp/build1" ["extension", "package", "/out/ext.cnb", "--format", "file"])
    none (by decide) (by decide)⟩

/-! ## The shape of the calls of a run -/

/-- Every builder invocation of a run has an unset working directory and the
argument list that `builderArgs` computes from the existence check made after
the first allocation. -/
theorem builder_call_shape {σ : Type} (h : Host σ) (j : Jam σ)
    (buildpackDir output version : String) (offline : Bool) (s : σ)
    (x : Execution) (r : Option Error)
    (hx : Call.executable x r ∈ (j.Execute h buildpackDir output version offline s).trace) :
    ∃ b e, x = Execution.mk ""
      (builderArgs (descriptorAndCommand b e).2
        (filepathJoin buildpackDir (descriptorAndCommand b e).1)
        (filepathJoin (j.tempOutput "" "" s).1.1 (version ++ ".tgz")) version offline) := by
  refine ⟨(h.Exists (filepathJoin buildpackDir "extension.toml") (j.tempOutput "" "" s).2).1,
    (h.Exists (filepathJoin buildpackDir "extension.toml") (j.tempOutput "" "" s).2).2, ?_⟩
  simp only [Jam.Execute, Jam.executeBody, Jam.packageStep] at hx
  split at hx
  · simp at hx
  · split at hx
    · simp at hx
      exact hx.1
    · split at hx
      · split at hx
        · simp at hx
          exact hx.1
        · simp at hx
          exact hx.1
      · simp at hx
        exact hx.1

/-- Every `os.Stat` call of a run is on the tarball path. -/
theorem stat_call_shape {σ : Type} (h : Host σ) (j : Jam σ)
    (buildpackDir output version : String) (offline : Bool) (s : σ)
    (q : String) (r : Option Error)
    (hq : Call.osStat q r ∈ (j.Execute h buildpackDir output version offline s).trace) :
    q = filepathJoin (j.tempOutput "" "" s).1.1 (version ++ ".tgz") := by
  simp only [Jam.Execute, Jam.executeBody, Jam.packageStep] at hq
  split at hq
  · simp at hq
  · split at hq
    · simp at hq
    · split at hq
      · split at hq
        · simp at hq
          exact hq.1
        · simp at hq
          exact hq.1
      · simp at hq
        exact hq.1

/-- Every `tar` invocation of a run extracts the tarball path. -/
theorem tar_call_shape {σ : Type} (h : Host σ) (j : Jam σ)
    (buildpackDir output version : String) (offline : Bool) (s : σ)
    (x : Execution) (r : Option Error)
    (hx : Call.tar x r ∈ (j.Execute h buildpackDir output version offline s).trace) :
    x.Args = ["-xvf", filepathJoin (j.tempOutput "" "" s).1.1 (version ++ ".tgz")] := by
  simp only [Jam.Execute, Jam.executeBody, Jam.packageStep] at hx
  split at hx
  · simp at hx
  · split at hx
    · simp at hx
    · split at hx
      · split at hx
        · simp at hx
          rw [hx.1]
        · simp at hx
          rw [hx.1]
      · simp at hx

/-! ## Strings and paths -/

theorem filepathJoin_ne_of_last (a b : String) (b1 : List Char) (c : Char) (t : String)
    (hb : b.data = b1 ++ [c]) (h1 : c ≠ '/') (h2 : c ≠ '.')
    (ht : t.data.getLast? ≠ some c) : filepathJoin a b ≠ t := by
  intro heq
  obtain ⟨r, hr⟩ := joinChars_snoc a.data b1 c h1 h2
  have hd : joinChars a.data b.data = t.data := congrArg String.data heq
  rw [hb, hr] at hd
  apply ht
  rw [← hd]
  simp

theorem realElem_tgz (version : String) (hv : '/' ∉ version.data) :
    RealElem (version ++ ".tgz").data := by
  have hd : (version ++ ".tgz").data = version.data ++ ['.', 't', 'g', 'z'] := by
    rw [String.data_append]
  rw [hd]
  refine ⟨by simp, ?_, ?_, ?_⟩
  · intro e
    have := congrArg List.length e
    simp at this
  · intro e
    have := congrArg List.length e
    simp at this
  · intro hm
    rcases List.mem_append.1 hm with hm | hm
    · exact hv hm
    · revert hm
      decide

/-- C8, the claim at version `--offline` with `offline` false: the builder is
invoked once and its argument list contains the element `--offline` (as the
value of `--version`), although `offline` is false. -/
theorem offline_flag_counterexample :
    builderCalls (jamIdle.Execute (simpleHost okTool) "/src" "/out/bp.cnb" "--offline" false
        ["/src", "/tmp"]).trace =
      [Execution.mk "" ["pack", "--buildpack", "/src/buildpack.toml", "--output",
        "/tmp/jam1/--offline.tgz", "--version", "--offline"]] ∧
    ¬ (∀ x ∈ builderCalls (jamIdle.Execute (simpleHost okTool) "/src" "/out/bp.cnb"
        "--offline" false ["/src", "/tmp"]).trace, ("--offline" ∈ x.Args ↔ false = true)) := by
  decide

/-- C8, amended: for every `buildpackDir` and `output` and every version other
than the string `--offline`, the argument list of every builder invocation
contains the element `--offline` if and only if `offline` is true. -/
theorem offline_flag_iff {σ : Type} (h : Host σ) (j : Jam σ)
    (buildpackDir output version : String) (offline : Bool) (s : σ)
    (x : Execution) (r : Option Error)
    (hv : version ≠ "--offline")
    (hx : Call.executable x r ∈ (j.Execute h buildpackDir output version offline s).trace) :
    "--offline" ∈ x.Args ↔ offline = true := by
  obtain ⟨b, e, hxe⟩ := builder_call_shape h j buildpackDir output version offline s x r hx
  subst hxe
  have hcmd : (descriptorAndCommand b e).2 ≠ "--offline" := by
    unfold descriptorAndCommand
    split <;> decide
  have hdesc : filepathJoin buildpackDir (descriptorAndCommand b e).1 ≠ "--offline" := by
    unfold descriptorAndCommand
    split
    · exact filepathJoin_ne_of_last buildpackDir "extension.toml" "extension.tom".data 'l'
        "--offline" rfl (by decide) (by decide) (by decide)
    · exact filepathJoin_ne_of_last buildpackDir "buildpack.toml" "buildpack.tom".data 'l'
        "--offline" rfl (by decide) (by decide) (by decide)
  have htar : filepathJoin (j.tempOutput "" "" s).1.1 (version ++ ".tgz") ≠ "--offline" :=
    filepathJoin_ne_of_last _ (version ++ ".tgz") (version.data ++ ['.', 't', 'g']) 'z'
      "--offline" (by simp [String.data_append]) (by decide) (by decide) (by decide)
  cases offline with
  | false =>
    simp [builderArgs, hv.symm, hcmd.symm, hdesc.symm, htar.symm]
  | true =>
    simp [builderArgs]

/-- Witness of C8 amended: version `1.2.3` with `offline` true. -/
theorem offline_flag_iff_witness :
    "1.2.3" ≠ "--offline" ∧
    Call.executable (Execution.mk "" ["pack", "--buildpack", "/src/buildpack.toml",
        "--output", "/tmp/jam1/1.2.3.tgz", "--version", "1.2.3", "--offline"]) none ∈
      (jamOk.Execute (simpleHost okTool) "/src" "/out/bp.cnb" "1.2.3" true
        ["/src", "/tmp"]).trace ∧
    ("--offline" ∈ (Execution.mk "" ["pack", "--buildpack", "/src/buildpack.toml",
        "--output", "/tmp/jam1/1.2.3.tgz", "--version", "1.2.3", "--offline"]).Args ↔
      true = true) :=
  ⟨by decide, by decide, offline_flag_iff (simpleHost okTool) jamOk "/src" "/out/bp.cnb"
    "1.2.3" true ["/src", "/tmp"]
    (Execution.mk "" ["pack", "--buildpack", "/src/buildpack.toml",
        "--output", "/tmp/jam1/1.2.3.tgz", "--version", "1.2.3", "--offline"]) none
    (by decide) (by decide)⟩

/-- C9, the claim at version `../x` with the first temp directory `/tmp/jam1`:
the path passed to the builder after `--output` is `/tmp/x.tgz`, which is not
inside `/tmp/jam1`, whose file name is not `../x.tgz`, and which is not the
string `/tmp/jam1/../x.tgz`. -/
theorem tarball_path_counterexample :
    Call.executable (Execution.mk "" ["pack", "--buildpack", "/src/buildpack.toml",
        "--output", "/tmp/x.tgz", "--version", "../x"]) none ∈
      (jamIdle.Execute (simpleHost okTool) "/src" "/out/bp.cnb" "../x" false
        ["/src", "/tmp"]).trace ∧
    filepathDir "/tmp/x.tgz" ≠ "/tmp/jam1" ∧
    filepathBase "/tmp/x.tgz" ≠ "../x" ++ ".tgz" ∧
    "/tmp/x.tgz" ≠ "/tmp/jam1" ++ "/" ++ "../x" ++ ".tgz" := by
  decide

/-- C9, amended: for every version string that contains no separator `/`, the
path that `Jam.Execute` passes to the builder after `--output`, checks with
`os.Stat` and hands to `tar` is `filepath.Join(T1, version ++ ".tgz")`; its file
name (`filepath.Base`) is exactly `version ++ ".tgz"` and its directory
(`filepath.Dir`) is the cleaned `T1`; and when `T1` is already a cleaned path
other than `/` and `.`, the path is the string `T1 ++ "/" ++ version ++ ".tgz"`. -/
theorem tarball_path_in_first_temp_dir {σ : Type} (h : Host σ) (j : Jam σ)
    (buildpackDir output version : String) (offline : Bool) (s : σ)
    (hv : '/' ∉ version.data) :
    (∀ x r, Call.executable x r ∈ (j.Execute h buildpackDir output version offline s).trace →
      x.Args[3]? = some "--output" ∧
      x.Args[4]? = some (filepathJoin (j.tempOutput "" "" s).1.1 (version ++ ".tgz"))) ∧
    (∀ q r, Call.osStat q r ∈ (j.Execute h buildpackDir output version offline s).trace →
      q = filepathJoin (j.tempOutput "" "" s).1.1 (version ++ ".tgz")) ∧
    (∀ x r, Call.tar x r ∈ (j.Execute h buildpackDir output version offline s).trace →
      x.Args = ["-xvf", filepathJoin (j.tempOutput "" "" s).1.1 (version ++ ".tgz")]) ∧
    filepathBase (filepathJoin (j.tempOutput "" "" s).1.1 (version ++ ".tgz")) =
      version ++ ".tgz" ∧
    filepathDir (filepathJoin (j.tempOutput "" "" s).1.1 (version ++ ".tgz")) =
      filepathClean (j.tempOutput "" "" s).1.1 ∧
    (filepathClean (j.tempOutput "" "" s).1.1 = (j.tempOutput "" "" s).1.1 →
      (j.tempOutput "" "" s).1.1 ≠ "/" → (j.tempOutput "" "" s).1.1 ≠ "." →
      filepathJoin (j.tempOutput "" "" s).1.1 (version ++ ".tgz") =
        (j.tempOutput "" "" s).1.1 ++ "/" ++ version ++ ".tgz") := by
  have hreal := realElem_tgz version hv
  have hj := joinChars_real (j.tempOutput "" "" s).1.1.data (version ++ ".tgz").data hreal
  refine ⟨?_, ?_, ?_, ?_, ?_, ?_⟩
  · intro x r hx
    obtain ⟨b, e, hxe⟩ := builder_call_shape h j buildpackDir output version offline s x r hx
    subst hxe
    cases offline <;> simp [builderArgs]
  · intro q r hq
    exact stat_call_shape h j buildpackDir output version offline s q r hq
  · intro x r hx
    exact tar_call_shape h j buildpackDir output version offline s x r hx
  · simp only [filepathBase, filepathJoin]
    rw [hj.1]
  · simp only [filepathDir, filepathJoin, filepathClean]
    rw [hj.2]
  · generalize (j.tempOutput "" "" s).1.1 = T1
    intro hclean h1 h2
    have hc : cleanChars T1.data = T1.data := congrArg String.data hclean
    have hne : T1.data ≠ [] := by
      intro e0
      rw [e0] at hc
      exact absurd hc (by decide)
    have hout : cleanElems T1.data ≠ [] := by
      intro e0
      have hr : cleanChars T1.data = cleanRender (isRooted T1.data) [] := by
        unfold cleanChars
        rw [e0]
      rw [hc] at hr
      cases hroot : isRooted T1.data with
      | true =>
        rw [hroot] at hr
        exact h1 (String.ext hr)
      | false =>
        rw [hroot] at hr
        exact h2 (String.ext hr)
    have hR : (T1 ++ "/" ++ version ++ ".tgz").data =
        T1.data ++ ['/'] ++ (version ++ ".tgz").data := by
      simp [String.data_append]
    apply String.ext
    rw [hR]
    simp only [filepathJoin, joinChars, ne_eq, hne, not_false_eq_true, if_true]
    rw [cleanChars_slash_real _ _ hne hreal, cleanRender_snoc]
    simp only [dirPart, hout, if_false]
    have : cleanRender (isRooted T1.data) (cleanElems T1.data) = T1.data := hc
    rw [this]

/-- Witness of C9 amended: version `1.2.3` in the first temp directory
`/tmp/jam1`. -/
theorem tarball_path_in_first_temp_dir_witness :
    '/' ∉ "1.2.3".data ∧
    filepathBase (filepathJoin (jamOk.tempOutput "" "" ["/src", "/tmp"]).1.1
      ("1.2.3" ++ ".tgz")) = "1.2.3" ++ ".tgz" ∧
    filepathDir (filepathJoin (jamOk.tempOutput "" "" ["/src", "/tmp"]).1.1
      ("1.2.3" ++ ".tgz")) = filepathClean (jamOk.tempOutput "" "" ["/src", "/tmp"]).1.1 :=
  ⟨by decide,
    (tarball_path_in_first_temp_dir (simpleHost okTool) jamOk "/src" "/out/bp.cnb" "1.2.3"
      false ["/src", "/tmp"] (by decide)).2.2.2.1,
    (tarball_path_in_first_temp_dir (simpleHost okTool) jamOk "/src" "/out/bp.cnb" "1.2.3"
      false ["/src", "/tmp"] (by decide)).2.2.2.2.1⟩

/-- C10, the claim on a run in which the builder succeeds: the injected
allocator is called once, with `("", "")`, not twice. -/
theorem injected_allocator_counterexample :
    Call.executable (Execution.mk "" ["pack", "--buildpack", "/src/buildpack.toml",
        "--output", "/tmp/jam1/1.2.3.tgz", "--version", "1.2.3"]) none ∈
      ((jamOk.WithTempOutput (allocAt "/tmp/jam1")).Execute (simpleHost okTool) "/src"
        "/out/bp.cnb" "1.2.3" false ["/src", "/tmp"]).trace ∧
    tempOutputCalls ((jamOk.WithTempOutput (allocAt "/tmp/jam1")).Execute (simpleHost okTool)
        "/src" "/out/bp.cnb" "1.2.3" false ["/src", "/tmp"]).trace ≠
      [("", ""), ("", "build")] := by
  decide

/-- C10, amended: in every run of `Jam.Execute` in which the builder succeeds,
the allocator injected with `WithTempOutput` is called exactly once, with the
empty hints `("", "")`, as the first call of the run, to obtain `T1`;
`os.MkdirTemp` itself, not the injected allocator, is called exactly once, with
`("", "build")`, and the directory the packaging tool runs in is the path that
call returned. -/
theorem injected_allocator_called_once {σ : Type} (h : Host σ) (j : Jam σ)
    (f : TempDirFn σ) (buildpackDir output version : String) (offline : Bool) (s : σ)
    (x : Execution)
    (hx : Call.executable x none ∈
      ((j.WithTempOutput f).Execute h buildpackDir output version offline s).trace) :
    tempOutputCalls ((j.WithTempOutput f).Execute h buildpackDir output version offline s).trace
        = [("", "")] ∧
    ((j.WithTempOutput f).Execute h buildpackDir output version offline s).trace.head? =
        some (Call.tempOutput "" "" (f "" "" s).1.1 (f "" "" s).1.2) ∧
    mkdirTempCalls ((j.WithTempOutput f).Execute h buildpackDir output version offline s).trace
        = [("", "build")] ∧
    (∀ y r, Call.pack y r ∈
        ((j.WithTempOutput f).Execute h buildpackDir output version offline s).trace →
      ∃ e, Call.osMkdirTemp "" "build" y.Dir e ∈
        ((j.WithTempOutput f).Execute h buildpackDir output version offline s).trace) := by
  simp only [Jam.Execute, Jam.executeBody, Jam.packageStep, Jam.WithTempOutput] at hx ⊢
  split at hx
  · simp at hx
  · rename_i ha
    simp only [ha] at hx ⊢
    split at hx
    · rename_i e hb
      simp [hb] at hx
    · rename_i hb
      simp only [hb] at hx ⊢
      refine ⟨?_, ?_, ?_, ?_⟩
      · split
        · split <;> simp [tempOutputCalls]
        · simp [tempOutputCalls]
      · split
        · split <;> simp
        · simp
      · split
        · split <;> simp [mkdirTempCalls]
        · simp [mkdirTempCalls]
      · intro y r hy
        split at hy
        · split at hy
          · simp at hy
          · simp at hy
            simp [hy.1]
        · simp at hy
          simp [hy.1]

/-- Witness of C10 amended: a successful run with an injected allocator. -/
theorem injected_allocator_called_once_witness :
    Call.executable (Execution.mk "" ["pack", "--buildpack", "/src/buildpack.toml",
        "--output", "/tmp/jam1/1.2.3.tgz", "--version", "1.2.3"]) none ∈
      ((jamOk.WithTempOutput (allocAt "/tmp/jam1")).Execute (simpleHost okTool) "/src"
        "/out/bp.cnb" "1.2.3" false ["/src", "/tmp"]).trace ∧
    tempOutputCalls ((jamOk.WithTempOutput (allocAt "/tmp/jam1")).Execute (simpleHost okTool)
        "/src" "/out/bp.cnb" "1.2.3" false ["/src", "/tmp"]).trace = [("", "")] ∧
    mkdirTempCalls ((jamOk.WithTempOutput (allocAt "/tmp/jam1")).Execute (simpleHost okTool)
        "/src" "/out/bp.cnb" "1.2.3" false ["/src", "/tmp"]).trace = [("", "build")] :=
  ⟨by decide,
    (injected_allocator_called_once (simpleHost okTool) jamOk (allocAt "/tmp/jam1") "/src"
      "/out/bp.cnb" "1.2.3" false ["/src", "/tmp"]
      (Execution.mk "" ["pack", "--buildpack", "/src/buildpack.toml",
        "--output", "/tmp/jam1/1.2.3.tgz", "--version", "1.2.3"]) (by decide)).1,
    (injected_allocator_called_once (simpleHost okTool) jamOk (allocAt "/tmp/jam1") "/src"
      "/out/bp.cnb" "1.2.3" false ["/src", "/tmp"]
      (Execution.mk "" ["pack", "--buildpack", "/src/buildpack.toml",
        "--output", "/tmp/jam1/1.2.3.tgz", "--version", "1.2.3"]) (by decide)).2.2.1⟩

end Packagers
